import Mathlib

/-!
Shallow embedding of the rosc OSC codec (src/types.rs, src/encoder.rs,
src/osc_decoder.rs) and verification of its specification claims.

Modelling conventions:
* Rust byte buffers (`Vec<u8>`, `&[u8]`) are `List ℕ` with entries thought of
  as bytes; big-endian writes take the value modulo 2^width byte by byte,
  which matches the wrapping `as` casts in the source.
* Rust `String` payloads are carried as their UTF-8 byte lists.
* `f32`/`f64` arguments are carried as their IEEE-754 bit patterns (the codec
  only transports the bits; it never does float arithmetic).
* Fallible Rust functions returning `Result` become `Except OscError`.
-/

namespace Rosc

/-- Error type of the crate.  The `errors` module itself is not part of the
sources; these constructors are the ones referenced from `encoder.rs` and
`osc_decoder.rs` (`BadBundle`, `BadOscPacket`, `StringError`, `ReadError`,
`BadOscBundle`).  The payloads of `StringError` (a `FromUtf8Error`) and
`ReadError` (an `io::Error`) carry no information used by the codec and are
dropped. -/
inductive OscError where
  | BadBundle (msg : String)
  | BadOscPacket (msg : String)
  | StringError
  | ReadError
  | BadOscBundle
  deriving DecidableEq, Repr

/-- `OscMidiMessage` from types.rs: four raw bytes. -/
structure OscMidiMessage where
  port : ℕ
  status : ℕ
  data1 : ℕ
  data2 : ℕ
  deriving DecidableEq, Repr

/-- `OscColor` from types.rs: four raw bytes. -/
structure OscColor where
  red : ℕ
  green : ℕ
  blue : ℕ
  alpha : ℕ
  deriving DecidableEq, Repr

/-- `OscType` from types.rs.  `Int`/`Long` carry mathematical integers standing
for `i32`/`i64` values; `Float`/`Double` carry the IEEE bit patterns of the
`f32`/`f64`; `Char` carries the code point (`char as u32`); `String` carries
UTF-8 bytes; `Time(u32,u32)` carries seconds and fraction. -/
inductive OscType where
  | Int (x : ℤ)
  | Float (bits : ℕ)
  | String (s : List ℕ)
  | Blob (bytes : List ℕ)
  | Time (sec : ℕ) (frac : ℕ)
  | Long (x : ℤ)
  | Double (bits : ℕ)
  | Char (c : ℕ)
  | Color (c : OscColor)
  | Midi (m : OscMidiMessage)
  | Bool (b : Bool)
  | Nil
  | Inf
  | Array (xs : List OscType)

/-- `OscMessage` from types.rs: an address string (as UTF-8 bytes) and an
optional argument vector. -/
structure OscMessage where
  addr : List ℕ
  args : Option (List OscType)

/-- `OscPacket` from types.rs.  The `OscBundle` struct (fields `timetag`,
`content`) is inlined into the `Bundle` constructor because a Lean structure
cannot be mutually recursive with the inductive it occurs in. -/
inductive OscPacket where
  | Message (msg : OscMessage)
  | Bundle (timetag : OscType) (content : List OscPacket)

/-! ## Alignment utility (encoder.rs `pad`, osc_decoder.rs `pad_four`) -/

/-- encoder.rs `pad`: rounds a position up to the next multiple of 4.
Source: `match pos % 4 { 0 => pos, d => pos + (4 - d) }`. -/
def pad (pos : ℕ) : ℕ :=
  match pos % 4 with
  | 0 => pos
  | d => pos + (4 - d)

/-- osc_decoder.rs `pad_four`: the decoder's copy of the alignment helper.
Source: `let d = pos % 4; match d { 0 => pos, _ => pos + (4 - d) }`. -/
def pad_four (pos : ℕ) : ℕ :=
  let d := pos % 4
  match d with
  | 0 => pos
  | _ => pos + (4 - d)

theorem pad_eq_ite (n : ℕ) : pad n = if n % 4 = 0 then n else n + (4 - n % 4) := by
  rcases h : n % 4 with _ | d <;> simp [pad, h]

theorem pad_four_eq_pad (n : ℕ) : pad_four n = pad n := by
  rcases h : n % 4 with _ | d <;> simp [pad, pad_four, h]

/-! ## Big-endian byte writing (`byteorder::BigEndian`) -/

/-- The four big-endian bytes of `n` modulo `2^32`; models
`BigEndian::write_u32`/`write_i32` (the `as u32`/`as i32` casts wrap, and the
written bytes depend only on the value modulo `2^32`). -/
def beBytes32 (n : ℕ) : List ℕ :=
  [n / 2 ^ 24 % 256, n / 2 ^ 16 % 256, n / 2 ^ 8 % 256, n % 256]

/-- The eight big-endian bytes of `n` modulo `2^64`; models
`BigEndian::write_u64`/`write_i64`. -/
def beBytes64 (n : ℕ) : List ℕ :=
  [n / 2 ^ 56 % 256, n / 2 ^ 48 % 256, n / 2 ^ 40 % 256, n / 2 ^ 32 % 256,
   n / 2 ^ 24 % 256, n / 2 ^ 16 % 256, n / 2 ^ 8 % 256, n % 256]

/-- The unsigned value of a 4-byte big-endian field (0 on any other length);
models `BigEndian::read_u32`. -/
def beVal32 (bs : List ℕ) : ℕ :=
  match bs with
  | [a, b, c, d] => ((a * 256 + b) * 256 + c) * 256 + d
  | _ => 0

/-- Two's-complement unsigned representative of an integer modulo `2^w`:
what the wrapping `as` cast of `x` to a `w`-bit word stores. -/
def toUnsigned (w : ℕ) (x : ℤ) : ℕ := (x % (2 ^ w : ℕ)).toNat

/-! ## String encoding (encoder.rs) -/

/-- encoder.rs `pad_bytes`: pushes zero bytes until the length reaches
`pad(len)`.  The `while bytes.len() < padded` loop appends exactly
`pad len - len` zeros. -/
def pad_bytes (bytes : List ℕ) : List ℕ :=
  bytes ++ List.replicate (pad bytes.length - bytes.length) 0

/-- encoder.rs `encode_string`: null-terminates the byte representation of the
string and pads with null bytes to a multiple of 4. -/
def encode_string (s : List ℕ) : List ℕ :=
  pad_bytes (s ++ [0])

/-- encoder.rs `encode_time_tag`: seconds then fraction, each 4 bytes
big-endian. -/
def encode_time_tag (sec : ℕ) (frac : ℕ) : List ℕ :=
  beBytes32 sec ++ beBytes32 frac

/-! ## Argument encoding (encoder.rs `encode_arg`) -/

/-- Models the element-copy loop `for (i, v) in x.iter().enumerate()
{ bytes[i + 4] = *v }` (and the slice writes of `BigEndian::write_*`):
stores `src` into `dst` starting at index `offset`, one `List.set` per
element. -/
def copyInto (dst : List ℕ) (offset : ℕ) : List ℕ → List ℕ
  | [] => dst
  | v :: rest => copyInto (dst.set offset v) (offset + 1) rest

/-- encoder.rs `encode_arg`: payload bytes (if any) and the type-tag
character for one argument.  The source `match` has no arm for
`OscType::Array` (the encoder predates that variant); per the spec an
unsupported variant fails, modelled here with `BadOscPacket`. -/
def encode_arg : OscType → Except OscError (Option (List ℕ) × Char)
  | .Int x => .ok (some (beBytes32 (toUnsigned 32 x)), 'i')
  | .Long x => .ok (some (beBytes64 (toUnsigned 64 x)), 'h')
  | .Float bits => .ok (some (beBytes32 bits), 'f')
  | .Double bits => .ok (some (beBytes64 bits), 'd')
  | .Char c => .ok (some (beBytes32 c), 'c')
  | .String s => .ok (some (encode_string s), 's')
  | .Blob x =>
      let padded_blob_length := pad x.length
      let bytes := List.replicate (4 + padded_blob_length) 0
      let bytes := copyInto bytes 0 (beBytes32 x.length)
      let bytes := copyInto bytes 4 x
      .ok (some bytes, 'b')
  | .Time sec frac => .ok (some (encode_time_tag sec frac), 't')
  | .Midi m => .ok (some [m.port, m.status, m.data1, m.data2], 'm')
  | .Color c => .ok (some [c.red, c.green, c.blue, c.alpha], 'r')
  | .Bool b => if b then .ok (none, 'T') else .ok (none, 'F')
  | .Nil => .ok (none, 'N')
  | .Inf => .ok (none, 'I')
  | .Array _ => .error (.BadOscPacket "Unsupported type tag.")

/-! ## Message encoding (encoder.rs `encode_message`) -/

/-- The argument loop of encoder.rs `encode_message`: walks the argument
vector accumulating the type-tag characters and the concatenated payload
bytes, propagating the first `encode_arg` error (`try!`). -/
def encode_args : List OscType → Except OscError (List Char × List ℕ)
  | [] => .ok ([], [])
  | a :: rest =>
    match encode_arg a with
    | .error e => .error e
    | .ok (bytes, tag) =>
      match encode_args rest with
      | .error e => .error e
      | .ok (tags, arg_bytes) =>
        .ok (tag :: tags, (match bytes with | some b => b | none => []) ++ arg_bytes)

/-- encoder.rs `encode_message`: encoded address, then the encoded type-tag
string (a comma followed by one tag character per argument), then the
argument payload bytes (the source only extends when `arg_bytes` is
non-empty, which is kept as the trailing `if`). -/
def encode_message (msg : OscMessage) : Except OscError (List ℕ) :=
  match (match msg.args with
         | some args => encode_args args
         | none => Except.ok ([], [])) with
  | .error e => .error e
  | .ok (tags, arg_bytes) =>
    .ok (encode_string msg.addr
          ++ encode_string ((',' :: tags).map Char.toNat)
          ++ if arg_bytes.isEmpty then [] else arg_bytes)

/-! ## Bundle and packet encoding (encoder.rs `encode`, `encode_bundle`) -/

/-- The UTF-8 bytes of the literal `"#bundle"`. -/
def bundleTagBytes : List ℕ := [35, 98, 117, 110, 100, 108, 101]

theorem OscType.one_le_sizeOf (t : OscType) : 1 ≤ sizeOf t := by
  cases t <;> simp_arith

mutual

/-- encoder.rs `encode_bundle` (taking the two `OscBundle` fields): the
`"#bundle"` header string, the time-tag payload (`BadBundle` when the
time-tag value has no payload), then `[0,0,0,0]` for empty content or the
length-prefixed encoded elements. -/
def encode_bundle (timetag : OscType) (content : List OscPacket) :
    Except OscError (List ℕ) :=
  match encode_arg timetag with
  | .error e => .error e
  | .ok (none, _) => .error (.BadBundle "Missing time tag!")
  | .ok (some x, _) =>
    let bundle_bytes := encode_string bundleTagBytes ++ x
    if content.isEmpty then
      .ok (bundle_bytes ++ [0, 0, 0, 0])
    else
      match encode_content content with
      | .error e => .error e
      | .ok rest => .ok (bundle_bytes ++ rest)
termination_by sizeOf timetag + sizeOf content
decreasing_by simp_wf; have h1 := OscType.one_le_sizeOf timetag; omega

/-- The element loop of encoder.rs `encode_bundle`: each packet is encoded
by its own branch (`encode_message` / `encode_bundle`) and prefixed with
the 4-byte big-endian length of its encoding. -/
def encode_content : List OscPacket → Except OscError (List ℕ)
  | [] => .ok []
  | .Message m :: rest =>
    match encode_message m with
    | .error e => .error e
    | .ok msg =>
      match encode_content rest with
      | .error e => .error e
      | .ok tl => .ok (beBytes32 msg.length ++ msg ++ tl)
  | .Bundle timetag content :: rest =>
    match encode_bundle timetag content with
    | .error e => .error e
    | .ok bdl =>
      match encode_content rest with
      | .error e => .error e
      | .ok tl => .ok (beBytes32 bdl.length ++ bdl ++ tl)
termination_by l => sizeOf l
decreasing_by all_goals simp_wf; all_goals omega

end

/-- encoder.rs `encode`: dispatches a packet to `encode_message` or
`encode_bundle`. -/
def encode : OscPacket → Except OscError (List ℕ)
  | .Message m => encode_message m
  | .Bundle timetag content => encode_bundle timetag content

/-! ## Decoder (osc_decoder.rs)

The decoder in the source is an early draft: `decode_message` discards the
parsed address (printing it), never advances a shared cursor, and returns
the placeholder packet `osc_types::OscPacket::Message(osc_types::OscMessage)`
(a field-less `OscMessage` from the `osc_types` module, which is not among
the sources); `decode_bundle` is unimplemented and always fails.  The
outcome type below reflects exactly what the draft can produce. -/

/-- Outcome of a `decode` call on the draft decoder.  `panicked` models a
Rust index-out-of-bounds panic (`msg[0]` on an empty slice); `stubMessage`
models the placeholder `Ok(OscPacket::Message(OscMessage))` that
`decode_message` returns regardless of input. -/
inductive DecodeResult where
  | panicked
  | stubMessage
  | err (e : OscError)
  deriving DecidableEq, Repr

/-- `b` is a UTF-8 continuation byte (`0x80..=0xBF`). -/
def isCont (b : ℕ) : Bool := 0x80 ≤ b && b ≤ 0xBF

/-- Allowed range of the first continuation byte after a 3-byte leader `b`
(`0xE0` narrows to `0xA0..=0xBF`, `0xED` to `0x80..=0x9F`). -/
def cont3First (b c : ℕ) : Bool :=
  if b = 0xE0 then 0xA0 ≤ c && c ≤ 0xBF
  else if b = 0xED then 0x80 ≤ c && c ≤ 0x9F
  else isCont c

/-- Allowed range of the first continuation byte after a 4-byte leader `b`
(`0xF0` narrows to `0x90..=0xBF`, `0xF4` to `0x80..=0x8F`). -/
def cont4First (b c : ℕ) : Bool :=
  if b = 0xF0 then 0x90 ≤ c && c ≤ 0xBF
  else if b = 0xF4 then 0x80 ≤ c && c ≤ 0x8F
  else isCont c

/-- UTF-8 validity of a byte list; models the check done by
`String::from_utf8`. -/
def utf8Valid : List ℕ → Bool
  | [] => true
  | b :: rest =>
    if b ≤ 0x7F then utf8Valid rest
    else if 0xC2 ≤ b ∧ b ≤ 0xDF then
      match rest with
      | c1 :: r => isCont c1 && utf8Valid r
      | [] => false
    else if 0xE0 ≤ b ∧ b ≤ 0xEF then
      match rest with
      | c1 :: c2 :: r => cont3First b c1 && isCont c2 && utf8Valid r
      | _ => false
    else if 0xF0 ≤ b ∧ b ≤ 0xF4 then
      match rest with
      | c1 :: c2 :: c3 :: r => cont4First b c1 && isCont c2 && isCont c3 && utf8Valid r
      | _ => false
    else false

/-- `BufRead::read_until(0, ..)` on an in-memory cursor: the bytes up to and
including the first zero byte, or the whole remaining buffer when no zero
byte occurs before end of input (`read_until` reports success in both
cases). -/
def read_until_zero : List ℕ → List ℕ
  | [] => []
  | b :: rest => if b = 0 then [b] else b :: read_until_zero rest

/-- osc_decoder.rs `read_osc_string`: `read_until(0, ..)` then
`String::from_utf8`, mapping a UTF-8 failure to `StringError`.  The result
carries the bytes handed to `from_utf8` — note they still include the zero
delimiter when one was found.  The `ReadError` arm of the source is dead
code on an in-memory cursor. -/
def read_osc_string (buf : List ℕ) : Except OscError (List ℕ) :=
  let str_buf := read_until_zero buf
  if utf8Valid str_buf then .ok str_buf else .error .StringError

/-- osc_decoder.rs `decode_message`: reads one OSC string (printing either
the address together with `pad_four` of the cursor position, or the error)
and then returns the placeholder message packet in every case; `size` is
accepted but never used. -/
def decode_message (msg : List ℕ) (size : ℕ) : DecodeResult :=
  match read_osc_string msg with
  | .ok _ => DecodeResult.stubMessage
  | .error _ => DecodeResult.stubMessage

/-- osc_decoder.rs `decode_bundle`: unimplemented, always `BadOscBundle`. -/
def decode_bundle (msg : List ℕ) : DecodeResult :=
  DecodeResult.err OscError.BadOscBundle

/-- osc_decoder.rs `decode`: dispatches on `msg[0]` — `'/'` (47) to
`decode_message`, `'#'` (35) to `decode_bundle`, anything else to
`BadOscPacket`.  Indexing `msg[0]` panics when the buffer is empty. -/
def decode (msg : List ℕ) (size : ℕ) : DecodeResult :=
  match msg with
  | [] => DecodeResult.panicked
  | b :: _ =>
    if b = 47 then decode_message msg size
    else if b = 35 then decode_bundle msg
    else DecodeResult.err (OscError.BadOscPacket "Unknown message format.")

/-! ## Claim C4: the alignment utility -/

/-- Closed form of `pad` that `omega` can work with. -/
theorem pad_eq (n : ℕ) : pad n = n + (4 - n % 4) % 4 := by
  have h4 : n % 4 < 4 := Nat.mod_lt n (by omega)
  rcases h : n % 4 with _ | d <;> rw [pad_eq_ite, h] <;> simp <;> omega

/-- C4: for every `n ≥ 0`, `pad n` is the smallest multiple of 4 that is
`≥ n`; `pad n = n` when `n % 4 = 0` and `pad n = n + (4 - n % 4)` otherwise;
`pad` is total (a plain function, no failure mode) and idempotent.  The
decoder's copy `pad_four` computes the same function. -/
theorem pad_correct (n : ℕ) :
    pad n % 4 = 0 ∧ n ≤ pad n ∧ (∀ m, m % 4 = 0 → n ≤ m → pad n ≤ m) ∧
    (n % 4 = 0 → pad n = n) ∧ (n % 4 ≠ 0 → pad n = n + (4 - n % 4)) ∧
    pad (pad n) = pad n ∧ pad_four n = pad n := by
  have h1 := pad_eq n
  have h2 := pad_eq (pad n)
  have h3 := pad_four_eq_pad n
  refine ⟨by omega, by omega, fun m hm hnm => by omega, by omega, by omega, by omega, h3⟩

theorem pad_correct_witness :
    pad 10 ≤ 12 ∧ pad 4 = 4 ∧ pad 5 = 5 + (4 - 5 % 4) :=
  ⟨(pad_correct 10).2.2.1 12 (by decide) (by decide),
   (pad_correct 4).2.2.2.1 (by decide),
   (pad_correct 5).2.2.2.2.1 (by decide)⟩

/-! ## Claim C5: string encoding -/

theorem pad_bytes_eq (bs : List ℕ) :
    pad_bytes bs = bs ++ List.replicate (pad bs.length - bs.length) 0 := rfl

theorem length_pad_bytes (bs : List ℕ) : (pad_bytes bs).length = pad bs.length := by
  have h := pad_eq bs.length
  simp [pad_bytes]
  omega

theorem getLast?_append_replicate_zero (xs : List ℕ) (k : ℕ) :
    (xs ++ [0] ++ List.replicate k 0).getLast? = some 0 := by
  induction k with
  | zero => simp [List.getLast?_concat]
  | succ k _ =>
    rw [List.replicate_succ',
        show xs ++ [0] ++ (List.replicate k 0 ++ [0])
            = (xs ++ [0] ++ List.replicate k 0) ++ [0] by simp]
    exact List.getLast?_concat _

/-- C5: `encode_string s` is `s`, one NUL terminator, then NUL padding; its
length is `pad (|s| + 1)`, a positive multiple of 4, and the output ends in
at least one NUL byte. -/
theorem encode_string_spec (s : List ℕ) :
    encode_string s
        = s ++ [0] ++ List.replicate (pad (s.length + 1) - (s.length + 1)) 0 ∧
    (encode_string s).length = pad (s.length + 1) ∧
    (encode_string s).length % 4 = 0 ∧
    0 < (encode_string s).length ∧
    (encode_string s).getLast? = some 0 := by
  have hpad := pad_eq (s.length + 1)
  have hlen : (encode_string s).length = pad (s.length + 1) := by
    rw [encode_string, length_pad_bytes]
    simp
  refine ⟨by simp [encode_string, pad_bytes], hlen, by omega, by omega, ?_⟩
  rw [encode_string, pad_bytes_eq]
  exact getLast?_append_replicate_zero s _

/-! ## Claim C6: blob encoding -/

theorem copyInto_append (pre : List ℕ) :
    ∀ (src suf : List ℕ) (k : ℕ),
      copyInto (pre ++ suf) (pre.length + k) src = pre ++ copyInto suf k src := by
  intro src
  induction src with
  | nil => intro suf k; rfl
  | cons v rest ih =>
    intro suf k
    rw [copyInto, copyInto,
        List.set_append_right _ _ (by omega : pre.length ≤ pre.length + k),
        show pre.length + k - pre.length = k by omega,
        show pre.length + k + 1 = pre.length + (k + 1) by omega]
    exact ih (suf.set k v) (k + 1)

theorem copyInto_replicate_zero :
    ∀ (src : List ℕ) (n : ℕ), src.length ≤ n →
      copyInto (List.replicate n 0) 0 src = src ++ List.replicate (n - src.length) 0 := by
  intro src
  induction src with
  | nil => intro n _; rfl
  | cons v rest ih =>
    intro n hn
    obtain ⟨m, rfl⟩ : ∃ m, n = m + 1 := ⟨n - 1, by simp at hn; omega⟩
    have hlen : rest.length ≤ m := by simp at hn; omega
    have happ := copyInto_append [v] rest (List.replicate m 0) 0
    simp only [List.length_cons, List.length_nil, Nat.zero_add, Nat.add_zero] at happ
    have hset : (List.replicate (m + 1) (0 : ℕ)).set 0 v = [v] ++ List.replicate m 0 := rfl
    rw [copyInto, hset, show (0 + 1 : ℕ) = 1 from rfl, happ, ih m hlen]
    simp [Nat.succ_sub_succ]

/-- C6: a blob's encoding is the 4-byte big-endian length prefix holding the
unpadded byte count, then the raw bytes, then zero padding up to the next
multiple of 4; the prefix's value is the pre-padding count (for any blob
small enough for the `as i32` cast to be exact, i.e. below `2^32` here since
the bytes only depend on the value modulo `2^32`). -/
theorem blob_encoding (x : List ℕ) :
    encode_arg (.Blob x)
        = .ok (some (beBytes32 x.length ++ x
            ++ List.replicate (pad x.length - x.length) 0), 'b') ∧
    (beBytes32 x.length).length = 4 ∧
    (x.length < 2 ^ 32 → beVal32 (beBytes32 x.length) = x.length) := by
  refine ⟨?_, rfl, fun hx => ?_⟩
  · have hle : x.length ≤ pad x.length := by have := pad_eq x.length; omega
    rw [encode_arg]
    have h1 : copyInto (List.replicate (4 + pad x.length) 0) 0 (beBytes32 x.length)
        = beBytes32 x.length ++ List.replicate (pad x.length) 0 := by
      rw [copyInto_replicate_zero (beBytes32 x.length) (4 + pad x.length)
            (by have h4 : (beBytes32 x.length).length = 4 := rfl; omega)]
      simp [beBytes32]
    have h2 : copyInto (beBytes32 x.length ++ List.replicate (pad x.length) 0) 4 x
        = beBytes32 x.length ++ (x ++ List.replicate (pad x.length - x.length) 0) := by
      rw [show (4 : ℕ) = (beBytes32 x.length).length + 0 from rfl, copyInto_append,
          copyInto_replicate_zero x (pad x.length) hle]
    simp only [h1, h2, List.append_assoc]
  · simp only [beBytes32, beVal32]
    omega

theorem blob_encoding_witness :
    encode_arg (.Blob [1, 2, 3, 4, 5])
        = .ok (some (beBytes32 5 ++ [1, 2, 3, 4, 5] ++ List.replicate (pad 5 - 5) 0), 'b') ∧
    beVal32 (beBytes32 5) = 5 :=
  ⟨by
     have h := (blob_encoding [1, 2, 3, 4, 5]).1
     simpa using h,
   (blob_encoding [1, 2, 3, 4, 5]).2.2 (by decide)⟩

/-! ## Claim C3: empty-content bundles

The source (encoder.rs lines 69–73) appends `[0u8; 4]` after the time tag
when `bundle.content` is empty, so the claim that nothing follows the time
tag is false on the code; the encoding of an empty bundle is 20 bytes, not
16. -/

/-- C3 counterexample: the empty bundle with time tag `Time 0 0` does not
encode to just the header and time tag; a spurious zero-length field
follows. -/
theorem empty_bundle_counterexample :
    encode (OscPacket.Bundle (.Time 0 0) [])
        = .ok [35, 98, 117, 110, 100, 108, 101, 0, 0, 0, 0, 0, 0, 0, 0, 0, 0, 0, 0, 0] ∧
    encode (OscPacket.Bundle (.Time 0 0) [])
        ≠ .ok (encode_string bundleTagBytes ++ encode_time_tag 0 0) := by
  have hval : encode (OscPacket.Bundle (.Time 0 0) [])
      = .ok [35, 98, 117, 110, 100, 108, 101, 0, 0, 0, 0, 0, 0, 0, 0, 0, 0, 0, 0, 0] := by
    rw [encode, encode_bundle]
    simp [encode_arg, encode_time_tag, beBytes32, encode_string, pad_bytes, pad, bundleTagBytes]
  refine ⟨hval, fun hcontra => ?_⟩
  rw [hval] at hcontra
  have h2 := Except.ok.inj hcontra
  simp [encode_string, pad_bytes, pad, bundleTagBytes, encode_time_tag, beBytes32] at h2

/-- C3 amended: encoding a bundle with empty content emits the 8-byte
`"#bundle\0"` header, the 8-byte time tag, and then a spurious 4-byte
zero-length field `[0,0,0,0]` (20 bytes in total), for every time tag
value. -/
theorem empty_bundle_encoding (s f : ℕ) :
    encode_bundle (.Time s f) []
        = .ok (encode_string bundleTagBytes ++ encode_time_tag s f ++ [0, 0, 0, 0]) := by
  rw [encode_bundle]
  simp [encode_arg]

/-! ## Claim C8: bundle header and mandatory time tag -/

/-- C8: the bundle header is the literal 8 bytes `"#bundle\0"`; whenever a
bundle with a `Time` tag encodes successfully the output is that header,
the 8-byte time-tag payload, and the rest; and when the time-tag value
carries no payload bytes (`encode_arg` returns `none`) the encoder fails
with the missing-time-tag error (`BadBundle "Missing time tag!"` — the
code's spelling of `BundleMissingTimeTag`), producing no bytes. -/
theorem bundle_header_and_missing_timetag (timetag : OscType) (content : List OscPacket) :
    encode_string bundleTagBytes = [35, 98, 117, 110, 100, 108, 101, 0] ∧
    (∀ s f out, timetag = .Time s f → encode_bundle timetag content = .ok out →
        (encode_time_tag s f).length = 8 ∧
        ∃ rest, out = encode_string bundleTagBytes ++ encode_time_tag s f ++ rest) ∧
    (∀ c, encode_arg timetag = .ok (none, c) →
        encode_bundle timetag content = .error (.BadBundle "Missing time tag!")) := by
  refine ⟨rfl, ?_, ?_⟩
  · rintro s f out rfl hok
    refine ⟨rfl, ?_⟩
    rw [encode_bundle] at hok
    simp only [encode_arg] at hok
    split at hok
    · exact ⟨[0, 0, 0, 0], by injection hok with h; exact h.symm⟩
    · split at hok
      · exact absurd hok (by simp)
      · next rest hrest =>
          exact ⟨rest, by injection hok with h; exact h.symm⟩
  · intro c hc
    rw [encode_bundle, hc]

theorem bundle_header_and_missing_timetag_witness :
    ((encode_time_tag 3 4).length = 8 ∧
      ∃ rest, [35, 98, 117, 110, 100, 108, 101, 0, 0, 0, 0, 3, 0, 0, 0, 4, 0, 0, 0, 0]
          = encode_string bundleTagBytes ++ encode_time_tag 3 4 ++ rest) ∧
    encode_bundle (.Bool true) ([] : List OscPacket)
        = .error (.BadBundle "Missing time tag!") := by
  constructor
  · refine (bundle_header_and_missing_timetag (.Time 3 4) []).2.1 3 4 _ rfl ?_
    rw [encode_bundle]
    simp [encode_arg, encode_time_tag, beBytes32, encode_string, pad_bytes, pad, bundleTagBytes]
  · exact (bundle_header_and_missing_timetag (.Bool true) []).2.2 'T' rfl

/-! ## Claim C10: absent argument list encodes like an empty one -/

/-- C10: for every address, a message with `args = none` encodes to exactly
the same bytes as one with `args = some []`: the encoded address followed by
the padded type-tag string `","` (byte 44) and no argument payload bytes. -/
theorem none_args_eq_empty_args (addr : List ℕ) :
    encode_message ⟨addr, none⟩ = encode_message ⟨addr, some []⟩ ∧
    encode_message ⟨addr, none⟩ = .ok (encode_string addr ++ encode_string [44]) := by
  have hcomma : ([','].map Char.toNat) = [44] := by decide
  constructor
  · rfl
  · simp [encode_message, hcomma]

/-! ## Claim C7: bundle element length prefixes -/

/-- The bytes a bundle element contributes: the 4-byte big-endian length of
its own encoding, then the encoding (empty in the error case, which never
occurs inside a successfully encoded bundle). -/
def elem_chunk (p : OscPacket) : List ℕ :=
  match encode p with
  | .ok bs => beBytes32 bs.length ++ bs
  | .error _ => []

theorem encode_content_spec :
    ∀ (l : List OscPacket) (out : List ℕ), encode_content l = .ok out →
      out = (l.map elem_chunk).flatten ∧ ∀ p ∈ l, ∃ bs, encode p = .ok bs := by
  intro l
  induction l with
  | nil =>
    intro out h
    rw [encode_content] at h
    injection h with h
    exact ⟨h.symm, by simp⟩
  | cons p rest ih =>
    intro out h
    cases p with
    | Message m =>
      rw [encode_content] at h
      cases hm : encode_message m with
      | error e => rw [hm] at h; exact absurd h (by simp)
      | ok msg =>
        rw [hm] at h
        cases ht : encode_content rest with
        | error e => rw [ht] at h; exact absurd h (by simp)
        | ok tl =>
          rw [ht] at h
          injection h with h
          obtain ⟨htl, hall⟩ := ih tl ht
          have hm' : encode (OscPacket.Message m) = .ok msg := hm
          constructor
          · rw [← h, htl]
            simp [elem_chunk, hm']
          · intro q hq
            simp only [List.mem_cons] at hq
            rcases hq with rfl | hq
            · exact ⟨msg, hm'⟩
            · exact hall q hq
    | Bundle tt bc =>
      rw [encode_content] at h
      cases hm : encode_bundle tt bc with
      | error e => rw [hm] at h; exact absurd h (by simp)
      | ok bdl =>
        rw [hm] at h
        cases ht : encode_content rest with
        | error e => rw [ht] at h; exact absurd h (by simp)
        | ok tl =>
          rw [ht] at h
          injection h with h
          obtain ⟨htl, hall⟩ := ih tl ht
          have hm' : encode (OscPacket.Bundle tt bc) = .ok bdl := by
            rw [encode]; exact hm
          constructor
          · rw [← h, htl]
            simp [elem_chunk, hm']
          · intro q hq
            simp only [List.mem_cons] at hq
            rcases hq with rfl | hq
            · exact ⟨bdl, hm'⟩
            · exact hall q hq

theorem beVal32_beBytes32 (n : ℕ) (h : n < 2 ^ 32) : beVal32 (beBytes32 n) = n := by
  simp only [beVal32, beBytes32]
  omega

/-- C7: in every successfully encoded bundle, the output after the header
and time tag is the concatenation, in order, of one chunk per element, where
each element's chunk is a 4-byte big-endian length prefix holding exactly
the byte length of that element's own encoding, followed by that encoding. -/
theorem bundle_element_length_prefix (timetag : OscType) (content : List OscPacket)
    (out : List ℕ) (hne : content ≠ []) (h : encode_bundle timetag content = .ok out) :
    ∃ ttb c, encode_arg timetag = .ok (some ttb, c) ∧
      out = encode_string bundleTagBytes ++ ttb ++ (content.map elem_chunk).flatten ∧
      ∀ p ∈ content, ∃ bs, encode p = .ok bs ∧
        elem_chunk p = beBytes32 bs.length ++ bs ∧
        (beBytes32 bs.length).length = 4 ∧
        (bs.length < 2 ^ 32 → beVal32 (beBytes32 bs.length) = bs.length) := by
  rw [encode_bundle] at h
  cases harg : encode_arg timetag with
  | error e => rw [harg] at h; exact absurd h (by simp)
  | ok pr =>
    obtain ⟨ob, c⟩ := pr
    cases ob with
    | none => rw [harg] at h; exact absurd h (by simp)
    | some ttb =>
      rw [harg] at h
      have hcE : content.isEmpty = false := by
        cases content with
        | nil => exact absurd rfl hne
        | cons a l => rfl
      rw [hcE] at h
      simp only [Bool.false_eq_true, if_false] at h
      cases hcont : encode_content content with
      | error e => rw [hcont] at h; exact absurd h (by simp)
      | ok rest =>
        rw [hcont] at h
        injection h with h
        obtain ⟨hrest, hall⟩ := encode_content_spec content rest hcont
        refine ⟨ttb, c, rfl, ?_, ?_⟩
        · rw [← h, hrest]
        · intro p hp
          obtain ⟨bs, hbs⟩ := hall p hp
          exact ⟨bs, hbs, by simp [elem_chunk, hbs], rfl,
                 fun hlt => beVal32_beBytes32 bs.length hlt⟩

theorem bundle_element_length_prefix_witness :
    ∃ ttb c, encode_arg (.Time 1 2) = .ok (some ttb, c) ∧
      [35, 98, 117, 110, 100, 108, 101, 0, 0, 0, 0, 1, 0, 0, 0, 2,
       0, 0, 0, 8, 47, 112, 0, 0, 44, 0, 0, 0]
        = encode_string bundleTagBytes ++ ttb
          ++ ([OscPacket.Message ⟨[47, 112], none⟩].map elem_chunk).flatten ∧
      ∀ p ∈ [OscPacket.Message ⟨[47, 112], none⟩], ∃ bs, encode p = .ok bs ∧
        elem_chunk p = beBytes32 bs.length ++ bs ∧
        (beBytes32 bs.length).length = 4 ∧
        (bs.length < 2 ^ 32 → beVal32 (beBytes32 bs.length) = bs.length) := by
  refine bundle_element_length_prefix (.Time 1 2) [OscPacket.Message ⟨[47, 112], none⟩] _
    (by simp) ?_
  have hcomma : ([','].map Char.toNat) = [44] := by decide
  rw [encode_bundle]
  simp [encode_arg, encode_time_tag, beBytes32, encode_content, encode_message, hcomma,
        encode_string, pad_bytes, pad, bundleTagBytes]

/-! ## Claim C1: round-trip (code bug — the decoder is a stub)

`decode_bundle` unconditionally fails and `decode_message` returns a
field-less placeholder, so `decode (encode p) = p` holds for no packet. -/

/-- C1 failing input: the bundle `⟨Time 0 0, []⟩` encodes successfully, but
decoding the resulting bytes yields `BadOscBundle`, not the packet; and the
spec's own example message `/greet/me ,s "hi!"` encodes to its documented
20 bytes, but decoding them yields only the contentless placeholder
message. -/
theorem roundtrip_fails_on_bundle :
    encode (OscPacket.Bundle (.Time 0 0) [])
        = .ok [35, 98, 117, 110, 100, 108, 101, 0, 0, 0, 0, 0, 0, 0, 0, 0, 0, 0, 0, 0] ∧
    decode [35, 98, 117, 110, 100, 108, 101, 0, 0, 0, 0, 0, 0, 0, 0, 0, 0, 0, 0, 0] 20
        = .err .BadOscBundle ∧
    encode (OscPacket.Message ⟨[47, 103, 114, 101, 101, 116, 47, 109, 101],
        some [OscType.String [104, 105, 33]]⟩)
        = .ok [47, 103, 114, 101, 101, 116, 47, 109, 101, 0, 0, 0,
               44, 115, 0, 0, 104, 105, 33, 0] ∧
    decode [47, 103, 114, 101, 101, 116, 47, 109, 101, 0, 0, 0,
            44, 115, 0, 0, 104, 105, 33, 0] 20
        = DecodeResult.stubMessage := by
  have hcomma : ([',', 's'].map Char.toNat) = [44, 115] := by decide
  refine ⟨?_, rfl, ?_, rfl⟩
  · rw [encode, encode_bundle]
    simp [encode_arg, encode_time_tag, beBytes32, encode_string, pad_bytes, pad, bundleTagBytes]
  · rw [encode]
    simp [encode_message, encode_args, encode_arg, hcomma,
          encode_string, pad_bytes, pad]

/-! ## Claim C2: decode safety (code bug — `msg[0]` panics on empty input) -/

/-- C2 failing input: decoding the empty buffer panics (index out of
bounds on `msg[0]`) instead of returning an error; no `TruncatedValue`
error exists anywhere in the code. -/
theorem decode_empty_buffer_panics : decode [] 0 = DecodeResult.panicked := rfl

/-! ## Claim C9: string decoding (code bug — draft `read_osc_string`)

`BufRead::read_until` reports success when the buffer ends before any NUL
byte, so `read_osc_string` never produces an `UnterminatedString`-style
error; and the bytes handed to `String::from_utf8` still include the NUL
delimiter, so the decoded string does not exclude it.  `decode_message`
computes `pad_four(cursor.position())` but never advances any cursor with
it. -/

/-- C9 failing inputs: a buffer with no NUL (`"hi"`) decodes successfully
to all its bytes instead of failing, and a NUL-terminated buffer keeps the
NUL in the result instead of excluding it. -/
theorem read_osc_string_divergences :
    read_osc_string [104, 105] = .ok [104, 105] ∧
    read_osc_string [104, 0] = .ok [104, 0] :=
  ⟨rfl, rfl⟩

end Rosc
